import Mathlib

/-!
Shallow embedding of the `pointers` library: from-scratch Rust
memory-ownership and synchronization primitives (Cell, RefCell, Rc, Arc,
spin Mutex, futex Mutex, RwLock).  Each Lean definition is translated from
the corresponding Rust source in `src/`; trace machines (inductive step
relations plus a reachability predicate) model sequences of operations on
the shared state, with ghost counters for live handles and guards.
-/

namespace Pointers

/-! ## Generic reachability for trace machines -/

/-- Reachability under a step relation from a fixed initial state
(`src`: sequences of operations starting from `new`). -/
inductive Reach {σ : Type u} (step : σ → σ → Prop) (init : σ) : σ → Prop
  | refl : Reach step init init
  | tail {s t : σ} : Reach step init s → step s t → Reach step init t

theorem Reach.invariant {σ : Type u} {step : σ → σ → Prop} {init : σ}
    {P : σ → Prop} (h0 : P init) (hstep : ∀ s t, P s → step s t → P t) :
    ∀ s, Reach step init s → P s := by
  intro s h
  induction h with
  | refl => exact h0
  | tail _ hst ih => exact hstep _ _ ih hst

/-! ## Cell (src/cell.rs)

`Cell<T>` holds one value behind an `UnsafeCell`; `set` overwrites it
wholesale, `get` (for `T: Copy`) returns a copy.  In the single-threaded
model the cell is just its current value. -/

structure Cell (α : Type u) where
  value : α

namespace Cell

/-- `Cell::new(value)` (src/cell.rs). -/
def new (v : α) : Cell α := ⟨v⟩

/-- `Cell::set(&self, value)` — `*self.value.get() = value` (src/cell.rs). -/
def set (_ : Cell α) (v : α) : Cell α := ⟨v⟩

/-- `Cell::get(&self) -> T where T: Copy` — `*self.value.get()` (src/cell.rs). -/
def get (c : Cell α) : α := c.value

end Cell

/-! ## RefCell (src/refcell.rs) -/

/-- `RefState` (src/refcell.rs): `Shared(usize) | Exclusive | Unshared`. -/
inductive RefState
  | Shared (n : Nat)
  | Exclusive
  | Unshared
  deriving DecidableEq, Repr

/-- `RefCell<T>`: payload behind `UnsafeCell` plus a `Cell<RefState>`. -/
structure RefCell (α : Type u) where
  value : α
  state : RefState

namespace RefCell

/-- `RefCell::new(value)` starts `Unshared` (src/refcell.rs). -/
def new (v : α) : RefCell α := ⟨v, .Unshared⟩

/-- `RefCell::borrow` (src/refcell.rs lines 29-46).  Returns whether a
read guard was handed out, together with the cell afterwards.  `some ()`
stands for `Some(Ref { .. })`. -/
def borrow (c : RefCell α) : Option Unit × RefCell α :=
  match c.state with
  | .Exclusive => (none, c)
  | .Shared n => (some (), { c with state := .Shared (n + 1) })
  | .Unshared => (some (), { c with state := .Shared 1 })

/-- `RefCell::borrow_mut` (src/refcell.rs lines 48-57).  `some ()` stands
for `Some(RefMut { .. })`. -/
def borrowMut (c : RefCell α) : Option Unit × RefCell α :=
  match c.state with
  | .Exclusive => (none, c)
  | .Shared _ => (none, c)
  | .Unshared => (some (), { c with state := .Exclusive })

/-- `impl Drop for Ref` (src/refcell.rs lines 64-76).  `none` models the
`unreachable!()` branch (a fatal internal check). -/
def dropRef (c : RefCell α) : Option (RefCell α) :=
  match c.state with
  | .Exclusive => none
  | .Unshared => none
  | .Shared n =>
      if n = 1 then some { c with state := .Unshared }
      else some { c with state := .Shared (n - 1) }

/-- `impl Drop for RefMut` (src/refcell.rs lines 82-86): unconditionally
stores `Unshared`. -/
def dropRefMut (c : RefCell α) : RefCell α := { c with state := .Unshared }

/-- `impl Deref for Ref` (src/refcell.rs lines 88-93): a read guard
dereferences to the cell's stored value. -/
def refDeref (c : RefCell α) : α := c.value

/-- `impl Deref for RefMut` (src/refcell.rs lines 95-100). -/
def refMutDeref (c : RefCell α) : α := c.value

/-- `impl DerefMut for RefMut` (src/refcell.rs lines 102-106): writing
`v` through the mutable dereference of a write guard. -/
def refMutWrite (c : RefCell α) (v : α) : RefCell α := { c with value := v }

end RefCell

/-! ### Trace machine for RefCell

A legal sequence of operations: guards exist only because a previous
`borrow`/`borrow_mut` handed one out, and each guard is dropped at most
once.  `reads`/`writes` are ghost counters of live read/write guards;
`panicked` records whether the `unreachable!()` branch of `Drop for Ref`
ever fired. -/

structure RefCfg (α : Type u) where
  cell : RefCell α
  reads : Nat
  writes : Nat
  panicked : Bool

/-- One legal operation on a `RefCell`: a `borrow` or `borrow_mut` call
(successful or not), or the drop of a live guard. -/
inductive RefStep {α : Type u} : RefCfg α → RefCfg α → Prop
  | borrow (c : RefCfg α) :
      RefStep c ⟨(c.cell.borrow).2,
        c.reads + (if (c.cell.borrow).1.isSome then 1 else 0),
        c.writes, c.panicked⟩
  | borrowMut (c : RefCfg α) :
      RefStep c ⟨(c.cell.borrowMut).2, c.reads,
        c.writes + (if (c.cell.borrowMut).1.isSome then 1 else 0),
        c.panicked⟩
  | dropRead (c : RefCfg α) : 1 ≤ c.reads →
      RefStep c ⟨(c.cell.dropRef).getD c.cell, c.reads - 1, c.writes,
        (c.panicked || (c.cell.dropRef).isNone : Bool)⟩
  | dropWrite (c : RefCfg α) : 1 ≤ c.writes →
      RefStep c ⟨c.cell.dropRefMut, c.reads, c.writes - 1, c.panicked⟩

/-- Initial configuration: a fresh `RefCell::new(v)`, no live guards. -/
def refInit (v : α) : RefCfg α := ⟨RefCell.new v, 0, 0, false⟩

/-- Borrow-state invariant of the RefCell trace machine: the state tag
matches the ghost guard counts exactly, no panic has fired, and the
payload still holds the initial value. -/
def RefInv (v0 : α) (c : RefCfg α) : Prop :=
  c.panicked = false ∧ c.cell.value = v0 ∧
    ((c.cell.state = .Unshared ∧ c.reads = 0 ∧ c.writes = 0) ∨
     (∃ n, c.cell.state = .Shared n ∧ 1 ≤ n ∧ c.reads = n ∧ c.writes = 0) ∨
     (c.cell.state = .Exclusive ∧ c.reads = 0 ∧ c.writes = 1))

theorem refcell_inv {α : Type u} (v0 : α) :
    ∀ c, Reach RefStep (refInit v0) c → RefInv v0 c := by
  apply Reach.invariant
  · exact ⟨rfl, rfl, Or.inl ⟨rfl, rfl, rfl⟩⟩
  · rintro s t ⟨hp, hv, hs⟩ step
    cases step with
    | borrow =>
        rcases hs with ⟨h1, h2, h3⟩ | ⟨n, h1, hn, h2, h3⟩ | ⟨h1, h2, h3⟩
        · exact ⟨hp, by simpa [RefCell.borrow, h1] using hv,
            Or.inr (Or.inl ⟨1, by simp [RefCell.borrow, h1], le_refl 1,
              by simp [RefCell.borrow, h1, h2], by simp [RefCell.borrow, h1, h3]⟩)⟩
        · exact ⟨hp, by simpa [RefCell.borrow, h1] using hv,
            Or.inr (Or.inl ⟨n + 1, by simp [RefCell.borrow, h1],
              Nat.le_add_left 1 n, by simp [RefCell.borrow, h1, h2],
              by simp [RefCell.borrow, h1, h3]⟩)⟩
        · exact ⟨hp, by simpa [RefCell.borrow, h1] using hv,
            Or.inr (Or.inr ⟨by simp [RefCell.borrow, h1],
              by simp [RefCell.borrow, h1, h2], by simp [RefCell.borrow, h1, h3]⟩)⟩
    | borrowMut =>
        rcases hs with ⟨h1, h2, h3⟩ | ⟨n, h1, hn, h2, h3⟩ | ⟨h1, h2, h3⟩
        · exact ⟨hp, by simpa [RefCell.borrowMut, h1] using hv,
            Or.inr (Or.inr ⟨by simp [RefCell.borrowMut, h1],
              by simp [RefCell.borrowMut, h1, h2],
              by simp [RefCell.borrowMut, h1, h3]⟩)⟩
        · exact ⟨hp, by simpa [RefCell.borrowMut, h1] using hv,
            Or.inr (Or.inl ⟨n, by simp [RefCell.borrowMut, h1], hn,
              by simp [RefCell.borrowMut, h1, h2],
              by simp [RefCell.borrowMut, h1, h3]⟩)⟩
        · exact ⟨hp, by simpa [RefCell.borrowMut, h1] using hv,
            Or.inr (Or.inr ⟨by simp [RefCell.borrowMut, h1],
              by simp [RefCell.borrowMut, h1, h2],
              by simp [RefCell.borrowMut, h1, h3]⟩)⟩
    | dropRead hc =>
        rcases hs with ⟨h1, h2, h3⟩ | ⟨n, h1, hn, h2, h3⟩ | ⟨h1, h2, h3⟩
        · omega
        · by_cases hone : n = 1
          · subst hone
            exact ⟨by simp [hp, RefCell.dropRef, h1],
              by simpa [RefCell.dropRef, h1] using hv,
              Or.inl ⟨by simp [RefCell.dropRef, h1], by simp [h2], h3⟩⟩
          · exact ⟨by simp [hp, RefCell.dropRef, h1, hone],
              by simpa [RefCell.dropRef, h1, hone] using hv,
              Or.inr (Or.inl ⟨n - 1, by simp [RefCell.dropRef, h1, hone],
                by omega, by simp [h2], h3⟩)⟩
        · omega
    | dropWrite hc =>
        rcases hs with ⟨h1, h2, h3⟩ | ⟨n, h1, hn, h2, h3⟩ | ⟨h1, h2, h3⟩
        · omega
        · omega
        · exact ⟨hp, hv, Or.inl ⟨rfl, h2, by simp [h3]⟩⟩

/-! ## RwLock (src/rwlock.rs)

State is a single `AtomicIsize`: `-1` writer, `0` free, `k > 0` means `k`
readers. -/

namespace RwLock

/-- The closure passed to `fetch_update` in `RwLock::read`
(src/rwlock.rs lines 26-35): `|x| if x < 0 { None } else { Some(x + 1) }`.
A `some` result is the committed new state of a successful attempt; `none`
makes the loop retry. -/
def readUpdate (x : Int) : Option Int :=
  if x < 0 then none else some (x + 1)

/-- The `compare_exchange(0, -1, ..)` in `RwLock::write` (src/rwlock.rs
lines 37-46): succeeds exactly from state `0`, committing `-1`. -/
def writeCas (x : Int) : Option Int :=
  if x = 0 then some (-1) else none

/-- `impl Drop for RwLockReadGuard` (src/rwlock.rs lines 60-65):
`fetch_sub(1)`; the source also asserts the prior value was `≥ 1`. -/
def dropReadState (x : Int) : Int := x - 1

/-- `impl Drop for RwLockWriteGuard` (src/rwlock.rs lines 84-88):
`store(0)`. -/
def dropWriteState (_ : Int) : Int := 0

theorem readUpdate_eq_some {x s' : Int} :
    readUpdate x = some s' ↔ 0 ≤ x ∧ s' = x + 1 := by
  unfold readUpdate
  split <;> simp <;> omega

theorem writeCas_eq_some {x s' : Int} :
    writeCas x = some s' ↔ x = 0 ∧ s' = -1 := by
  unfold writeCas
  split <;> simp <;> omega

end RwLock

/-- RwLock trace configuration: the atomic `state` word plus ghost
counts of live read and write guards. -/
structure RwCfg where
  state : Int
  readers : Nat
  writers : Nat

/-- One legal operation on an `RwLock`: a successful read or write
acquisition (failed attempts only retry and change nothing), or the drop
of a live guard. -/
inductive RwStep : RwCfg → RwCfg → Prop
  | read (c : RwCfg) (s' : Int) : RwLock.readUpdate c.state = some s' →
      RwStep c ⟨s', c.readers + 1, c.writers⟩
  | write (c : RwCfg) (s' : Int) : RwLock.writeCas c.state = some s' →
      RwStep c ⟨s', c.readers, c.writers + 1⟩
  | dropRead (c : RwCfg) : 1 ≤ c.readers →
      RwStep c ⟨RwLock.dropReadState c.state, c.readers - 1, c.writers⟩
  | dropWrite (c : RwCfg) : 1 ≤ c.writers →
      RwStep c ⟨RwLock.dropWriteState c.state, c.readers, c.writers - 1⟩

/-- `RwLock::new`: state `0`, no guards. -/
def rwInit : RwCfg := ⟨0, 0, 0⟩

/-- Invariant of the RwLock machine: either one writer holds the lock and
the state word is `-1`, or no writer does and the state word equals the
number of live readers. -/
def RwInv (c : RwCfg) : Prop :=
  (c.state = -1 ∧ c.writers = 1 ∧ c.readers = 0) ∨
    (c.state = (c.readers : Int) ∧ c.writers = 0)

theorem rwlock_inv : ∀ c, Reach RwStep rwInit c → RwInv c := by
  apply Reach.invariant
  · exact Or.inr ⟨by simp [rwInit], rfl⟩
  · rintro s t hs step
    cases step with
    | read s' h =>
        obtain ⟨hx, hs'⟩ := RwLock.readUpdate_eq_some.1 h
        unfold RwInv at hs ⊢
        dsimp only
        omega
    | write s' h =>
        obtain ⟨hx, hs'⟩ := RwLock.writeCas_eq_some.1 h
        unfold RwInv at hs ⊢
        dsimp only
        omega
    | dropRead h =>
        unfold RwInv at hs ⊢
        unfold RwLock.dropReadState
        dsimp only
        omega
    | dropWrite h =>
        unfold RwInv at hs ⊢
        unfold RwLock.dropWriteState
        dsimp only
        omega

/-! ## Arc (src/arc.rs) and Rc (src/rc.rs) reference counting

Both types keep an owner count in a heap control block (`ArcInner` /
`RcInner`).  `OwnerCfg` tracks the stored count, a ghost number of live
handles, and how many times the control block (payload destructor plus
deallocation, the single `drop(Box::from_raw(..))`) has been freed. -/

structure OwnerCfg where
  count : Nat
  live : Nat
  frees : Nat

namespace Arc

/-- `impl Clone for Arc` (src/arc.rs lines 22-31):
`owner.fetch_add(1, Relaxed)` and a new handle. -/
def cloneStep (s : OwnerCfg) : OwnerCfg :=
  ⟨s.count + 1, s.live + 1, s.frees⟩

/-- `impl Drop for Arc` (src/arc.rs lines 54-62): `fetch_sub(1, Release)`
returns the previous count; if it was `1`, the block is freed. -/
def dropStep (s : OwnerCfg) : OwnerCfg :=
  ⟨s.count - 1, s.live - 1, if s.count = 1 then s.frees + 1 else s.frees⟩

end Arc

namespace Rc

/-- `impl Clone for Rc` (src/rc.rs lines 20-29):
`owner_count.set(owner_count.get() + 1)`. -/
def cloneStep (s : OwnerCfg) : OwnerCfg :=
  ⟨s.count + 1, s.live + 1, s.frees⟩

/-- `impl Drop for Rc` (src/rc.rs lines 52-65): `c = get() - 1; set(c)`;
if the new count `c` is `0`, the block is freed. -/
def dropStep (s : OwnerCfg) : OwnerCfg :=
  ⟨s.count - 1, s.live - 1, if s.count - 1 = 0 then s.frees + 1 else s.frees⟩

end Rc

/-- A clone goes through an existing live handle and a drop consumes one,
so both require at least one live handle. -/
inductive ArcStep : OwnerCfg → OwnerCfg → Prop
  | clone (s : OwnerCfg) : 1 ≤ s.live → ArcStep s (Arc.cloneStep s)
  | drop (s : OwnerCfg) : 1 ≤ s.live → ArcStep s (Arc.dropStep s)

inductive RcStep : OwnerCfg → OwnerCfg → Prop
  | clone (s : OwnerCfg) : 1 ≤ s.live → RcStep s (Rc.cloneStep s)
  | drop (s : OwnerCfg) : 1 ≤ s.live → RcStep s (Rc.dropStep s)

/-- `Arc::new` / `Rc::new`: count `1`, one handle, nothing freed. -/
def ownerInit : OwnerCfg := ⟨1, 1, 0⟩

/-- Refcount invariant: the stored count equals the number of live
handles, and the block has been freed exactly once as soon as (and only
when) no handle is left. -/
def OwnerInv (s : OwnerCfg) : Prop :=
  s.count = s.live ∧ s.frees = (if s.live = 0 then 1 else 0)

theorem arc_inv : ∀ s, Reach ArcStep ownerInit s → OwnerInv s := by
  apply Reach.invariant
  · exact ⟨rfl, rfl⟩
  · rintro s t ⟨h1, h2⟩ step
    cases step with
    | clone hl =>
        unfold OwnerInv Arc.cloneStep
        dsimp only
        split at h2 <;> split <;> omega
    | drop hl =>
        unfold OwnerInv Arc.dropStep
        dsimp only
        split at h2 <;> split <;> split <;> omega

theorem rc_inv : ∀ s, Reach RcStep ownerInit s → OwnerInv s := by
  apply Reach.invariant
  · exact ⟨rfl, rfl⟩
  · rintro s t ⟨h1, h2⟩ step
    cases step with
    | clone hl =>
        unfold OwnerInv Rc.cloneStep
        dsimp only
        split at h2 <;> split <;> omega
    | drop hl =>
        unfold OwnerInv Rc.dropStep
        dsimp only
        split at h2 <;> split <;> split <;> omega

/-! ## Mutex (src/mutex.rs) and FutexMutex (src/futex_mutex.rs)

Both locks guard the payload with a single word and a CAS acquire loop;
only a successful CAS changes state (a failed attempt spins, or waits on
the futex, which alters no lock state), so in the interleaving model an
acquisition is one atomic step. -/

namespace Mutex

/-- The `compare_exchange(false, true, Acquire, Relaxed)` of
`Mutex::lock` (src/mutex.rs lines 24-34): succeeds exactly when the flag
is `false`, storing `true`. -/
def tryLock (b : Bool) : Option Bool := if b then none else some true

/-- `impl Drop for MutexGuard` (src/mutex.rs lines 56-60):
`store(false, Release)`. -/
def unlockWord : Bool := false

end Mutex

namespace FutexMutex

/-- The `compare_exchange(0, 1, Acquire, Relaxed)` on the futex word in
`FutexMutex::lock` (src/futex_mutex.rs lines 22-33). -/
def tryLock (v : Nat) : Option Nat := if v = 0 then some 1 else none

/-- `impl Drop for FutexMutexGuard` (src/futex_mutex.rs lines 54-59):
`store(0, Release)` (the `wake(1)` only unblocks a sleeper). -/
def unlockWord : Nat := 0

end FutexMutex

/-- Where a thread stands inside `for _ { let mut g = m.lock(); *g += 1; }`:
no guard, guard acquired, counter value read into a register, or
incremented value written back (guard still live until its drop). -/
inductive Phase
  | idle
  | own0
  | own1 (tmp : Nat)
  | own2
  deriving DecidableEq

/-- Per-thread configuration: remaining iterations and current phase. -/
structure TCfg where
  rem : Nat
  ph : Phase

/-- Whole-system configuration: the lock word, the protected counter, and
every thread's state. -/
structure MCfg (W : Type) (n : Nat) where
  lock : W
  value : Nat
  ts : Fin n → TCfg

/-- One interleaved step of `n` threads each incrementing the protected
counter `N` times through the guard: a successful CAS acquisition, the
non-atomic read and write making up `*guard += 1`, or the guard drop. -/
inductive MStep {W : Type} (tryL : W → Option W) (unl : W) {n : Nat} :
    MCfg W n → MCfg W n → Prop
  | acquire (s : MCfg W n) (i : Fin n) (w' : W) :
      (s.ts i).ph = .idle → 1 ≤ (s.ts i).rem → tryL s.lock = some w' →
      MStep tryL unl s
        ⟨w', s.value, Function.update s.ts i ⟨(s.ts i).rem, .own0⟩⟩
  | readv (s : MCfg W n) (i : Fin n) :
      (s.ts i).ph = .own0 →
      MStep tryL unl s
        ⟨s.lock, s.value, Function.update s.ts i ⟨(s.ts i).rem, .own1 s.value⟩⟩
  | writev (s : MCfg W n) (i : Fin n) (tmp : Nat) :
      (s.ts i).ph = .own1 tmp →
      MStep tryL unl s
        ⟨s.lock, tmp + 1, Function.update s.ts i ⟨(s.ts i).rem, .own2⟩⟩
  | release (s : MCfg W n) (i : Fin n) :
      (s.ts i).ph = .own2 →
      MStep tryL unl s
        ⟨unl, s.value, Function.update s.ts i ⟨(s.ts i).rem - 1, .idle⟩⟩

/-- Initial configuration: lock free, counter `0`, every thread with `N`
iterations to go and no guard. -/
def mInit {W : Type} (w0 : W) (n N : Nat) : MCfg W n :=
  ⟨w0, 0, fun _ => ⟨N, .idle⟩⟩

/-- Increments a thread has already contributed to the counter. -/
def contrib (N : Nat) (t : TCfg) : Nat :=
  (N - t.rem) + (if t.ph = .own2 then 1 else 0)

/-- Inductive invariant of the mutex system: iteration bounds, at most
one guard holder, the lock word free exactly when nobody holds a guard,
the register of a thread between read and write mirrors the counter, and
the counter equals the finished increments. -/
def MInv {W : Type} (unl : W) (N : Nat) {n : Nat} (s : MCfg W n) : Prop :=
  (∀ i, (s.ts i).rem ≤ N) ∧
  (∀ i, (s.ts i).ph ≠ .idle → 1 ≤ (s.ts i).rem) ∧
  (∀ i j, (s.ts i).ph ≠ .idle → (s.ts j).ph ≠ .idle → i = j) ∧
  (s.lock = unl → ∀ i, (s.ts i).ph = .idle) ∧
  (∀ i tmp, (s.ts i).ph = .own1 tmp → tmp = s.value) ∧
  s.value = ∑ i, contrib N (s.ts i)

theorem contrib_sum_update {n N : Nat} (f : Fin n → TCfg) (i : Fin n) (a : TCfg) :
    (∑ j, contrib N (Function.update f i a j)) + contrib N (f i) =
      (∑ j, contrib N (f j)) + contrib N a := by
  classical
  have h1 : (∑ j, contrib N (Function.update f i a j)) =
      contrib N a + ∑ j ∈ Finset.univ \ {i}, contrib N (f j) := by
    have := Finset.sum_update_of_mem (Finset.mem_univ i)
      (fun j => contrib N (f j)) (contrib N a)
    simpa [Function.comp] using
      (Finset.sum_congr rfl (fun j _ => by
        by_cases hj : j = i
        · subst hj; simp
        · simp [Function.update_noteq hj])).trans this
  have h2 : (∑ j, contrib N (f j)) =
      contrib N (f i) + ∑ j ∈ Finset.univ \ {i}, contrib N (f j) := by
    simpa using Finset.sum_eq_add_sum_diff_singleton (Finset.mem_univ i)
      (fun j => contrib N (f j))
  omega

theorem mstep_inv {W : Type} {tryL : W → Option W} {unl : W}
    (htry : ∀ w w', tryL w = some w' → w = unl ∧ w' ≠ unl)
    {n N : Nat} (s t : MCfg W n) (hinv : MInv unl N s)
    (hstep : MStep tryL unl s t) : MInv unl N t := by
  obtain ⟨hrem, hpos, hexcl, hfree, hreg, hval⟩ := hinv
  cases hstep with
  | acquire i w' hidle hit hcas =>
      obtain ⟨hl, hw'⟩ := htry _ _ hcas
      have hall : ∀ j, (s.ts j).ph = .idle := hfree hl
      refine ⟨?_, ?_, ?_, ?_, ?_, ?_⟩ <;> (try dsimp only)
      · intro j
        by_cases hj : j = i
        · subst hj; simpa using hrem j
        · simpa [Function.update_noteq hj] using hrem j
      · intro j hj
        by_cases hji : j = i
        · subst hji; simpa using hit
        · rw [Function.update_noteq hji] at hj
          exact absurd (hall j) hj
      · intro j k hj hk
        by_cases hji : j = i
        · by_cases hki : k = i
          · rw [hji, hki]
          · rw [Function.update_noteq hki] at hk
            exact absurd (hall k) hk
        · rw [Function.update_noteq hji] at hj
          exact absurd (hall j) hj
      · intro hl'
        exact absurd hl' hw'
      · intro j tmp hj
        by_cases hji : j = i
        · subst hji; simp at hj
        · rw [Function.update_noteq hji] at hj
          exact hreg j tmp hj
      · have hs := contrib_sum_update (N := N) s.ts i ⟨(s.ts i).rem, .own0⟩
        have hc : contrib N ⟨(s.ts i).rem, .own0⟩ = contrib N (s.ts i) := by
          simp [contrib, hidle]
        omega
  | readv i hown =>
      have hine : (s.ts i).ph ≠ .idle := by simp [hown]
      refine ⟨?_, ?_, ?_, ?_, ?_, ?_⟩ <;> (try dsimp only)
      · intro j
        by_cases hj : j = i
        · subst hj; simpa using hrem j
        · simpa [Function.update_noteq hj] using hrem j
      · intro j hj
        by_cases hji : j = i
        · subst hji; simpa using hpos j hine
        · rw [Function.update_noteq hji] at hj ⊢
          exact hpos j hj
      · intro j k hj hk
        have hj' : (s.ts j).ph ≠ .idle := by
          by_cases hji : j = i
          · subst hji; exact hine
          · rw [Function.update_noteq hji] at hj; exact hj
        have hk' : (s.ts k).ph ≠ .idle := by
          by_cases hki : k = i
          · subst hki; exact hine
          · rw [Function.update_noteq hki] at hk; exact hk
        exact hexcl j k hj' hk'
      · intro hl'
        exact absurd (hfree hl' i) hine
      · intro j tmp hj
        by_cases hji : j = i
        · subst hji
          simp at hj
          exact hj.symm
        · rw [Function.update_noteq hji] at hj
          exact hreg j tmp hj
      · have hs := contrib_sum_update (N := N) s.ts i ⟨(s.ts i).rem, .own1 s.value⟩
        have hc : contrib N ⟨(s.ts i).rem, .own1 s.value⟩ = contrib N (s.ts i) := by
          simp [contrib, hown]
        omega
  | writev i tmp hown =>
      have hine : (s.ts i).ph ≠ .idle := by simp [hown]
      have htmp : tmp = s.value := hreg i tmp hown
      refine ⟨?_, ?_, ?_, ?_, ?_, ?_⟩ <;> (try dsimp only)
      · intro j
        by_cases hj : j = i
        · subst hj; simpa using hrem j
        · simpa [Function.update_noteq hj] using hrem j
      · intro j hj
        by_cases hji : j = i
        · subst hji; simpa using hpos j hine
        · rw [Function.update_noteq hji] at hj ⊢
          exact hpos j hj
      · intro j k hj hk
        have hj' : (s.ts j).ph ≠ .idle := by
          by_cases hji : j = i
          · subst hji; exact hine
          · rw [Function.update_noteq hji] at hj; exact hj
        have hk' : (s.ts k).ph ≠ .idle := by
          by_cases hki : k = i
          · subst hki; exact hine
          · rw [Function.update_noteq hki] at hk; exact hk
        exact hexcl j k hj' hk'
      · intro hl'
        exact absurd (hfree hl' i) hine
      · intro j tmp' hj
        by_cases hji : j = i
        · subst hji; simp at hj
        · rw [Function.update_noteq hji] at hj
          exact absurd (hexcl j i (by simp [hj]) hine) hji
      · have hs := contrib_sum_update (N := N) s.ts i ⟨(s.ts i).rem, .own2⟩
        have hc : contrib N ⟨(s.ts i).rem, .own2⟩ = contrib N (s.ts i) + 1 := by
          simp [contrib, hown]
        omega
  | release i hown =>
      have hine : (s.ts i).ph ≠ .idle := by simp [hown]
      have hi1 : 1 ≤ (s.ts i).rem := hpos i hine
      have hiN : (s.ts i).rem ≤ N := hrem i
      refine ⟨?_, ?_, ?_, ?_, ?_, ?_⟩ <;> (try dsimp only)
      · intro j
        by_cases hj : j = i
        · subst hj; simp; omega
        · simpa [Function.update_noteq hj] using hrem j
      · intro j hj
        by_cases hji : j = i
        · subst hji; simp at hj
        · rw [Function.update_noteq hji] at hj ⊢
          exact hpos j hj
      · intro j k hj hk
        by_cases hji : j = i
        · subst hji; simp at hj
        · rw [Function.update_noteq hji] at hj
          exact absurd (hexcl j i hj hine) hji
      · intro _ j
        by_cases hji : j = i
        · subst hji; simp
        · rw [Function.update_noteq hji]
          by_contra hne
          exact hji (hexcl j i hne hine)
      · intro j tmp hj
        by_cases hji : j = i
        · subst hji; simp at hj
        · rw [Function.update_noteq hji] at hj
          exact absurd (hexcl j i (by simp [hj]) hine) hji
      · have hs := contrib_sum_update (N := N) s.ts i ⟨(s.ts i).rem - 1, .idle⟩
        have hc : contrib N ⟨(s.ts i).rem - 1, .idle⟩ = contrib N (s.ts i) := by
          simp [contrib, hown]
          omega
        omega

theorem minv_init {W : Type} (unl w0 : W) (n N : Nat) :
    MInv unl N (mInit (n := n) w0 N) := by
  refine ⟨?_, ?_, ?_, ?_, ?_, ?_⟩ <;>
    simp [mInit, contrib]

theorem minv_reach {W : Type} {tryL : W → Option W} {unl : W}
    (htry : ∀ w w', tryL w = some w' → w = unl ∧ w' ≠ unl)
    {n N : Nat} :
    ∀ s : MCfg W n, Reach (MStep tryL unl) (mInit unl n N) s → MInv unl N s := by
  apply Reach.invariant
  · exact minv_init unl unl n N
  · exact fun s t h hst => mstep_inv htry s t h hst

theorem mutexTry_spec :
    ∀ w w', Mutex.tryLock w = some w' → w = Mutex.unlockWord ∧ w' ≠ Mutex.unlockWord := by
  decide

theorem futexTry_spec :
    ∀ w w', FutexMutex.tryLock w = some w' →
      w = FutexMutex.unlockWord ∧ w' ≠ FutexMutex.unlockWord := by
  intro w w' h
  unfold FutexMutex.tryLock at h
  unfold FutexMutex.unlockWord
  split at h
  · rename_i hw
    injection h with h1
    exact ⟨hw, by omega⟩
  · simp at h

end Pointers

namespace Pointers

/-! Direct functional claims about RefCell. -/

/-- C4: `borrow` returns no result exactly on `Exclusive`; from `Unshared`
it moves to `Shared 1` and hands out a read guard; from `Shared n` it
moves to `Shared (n+1)` and hands out a read guard; the read guard
dereferences to the stored value. -/
theorem borrow_spec {α : Type u} (c : RefCell α) :
    ((c.borrow.1 = none ↔ c.state = .Exclusive) ∧
      (c.state = .Unshared →
        c.borrow = (some (), { c with state := .Shared 1 })) ∧
      (∀ n, c.state = .Shared n →
        c.borrow = (some (), { c with state := .Shared (n + 1) }))) ∧
    RefCell.refDeref c.borrow.2 = c.value := by
  constructor
  · refine ⟨?_, ?_, ?_⟩
    · cases h : c.state <;> simp [RefCell.borrow, h]
    · intro h; simp [RefCell.borrow, h]
    · intro n h; simp [RefCell.borrow, h]
  · cases h : c.state <;> simp [RefCell.borrow, h, RefCell.refDeref]

theorem borrow_spec_witness :
    ((⟨5, .Unshared⟩ : RefCell Nat).borrow = (some (), ⟨5, .Shared 1⟩)) ∧
    ((⟨5, .Shared 1⟩ : RefCell Nat).borrow = (some (), ⟨5, .Shared 2⟩)) ∧
    RefCell.refDeref ((⟨5, .Unshared⟩ : RefCell Nat).borrow.2) = 5 := by
  refine ⟨?_, ?_, ?_⟩
  · exact (borrow_spec (⟨5, .Unshared⟩ : RefCell Nat)).1.2.1 rfl
  · exact (borrow_spec (⟨5, .Shared 1⟩ : RefCell Nat)).1.2.2 1 rfl
  · exact (borrow_spec (⟨5, .Unshared⟩ : RefCell Nat)).2

/-- C5: `borrow_mut` returns no result exactly on `Exclusive` or any
`Shared n`, leaving the cell unchanged then; from `Unshared` it moves to
`Exclusive` and hands out a write guard.  In particular it fails while a
read guard is live (`Shared n`), succeeds once the last read guard drops
(`Shared 1` dropped gives `Unshared`), and a second `borrow_mut` under a
live write guard (`Exclusive`) fails. -/
theorem borrowMut_spec {α : Type u} (c : RefCell α) :
    ((c.borrowMut.1 = none ↔ c.state = .Exclusive ∨ ∃ n, c.state = .Shared n) ∧
      (c.borrowMut.1 = none → c.borrowMut.2 = c) ∧
      (c.state = .Unshared →
        c.borrowMut = (some (), { c with state := .Exclusive }))) ∧
    (∀ n, c.state = .Shared n → c.borrowMut.1 = none) ∧
    (c.state = .Shared 1 → ∃ c', c.dropRef = some c' ∧ c'.borrowMut.1 = some ()) ∧
    (c.state = .Exclusive → (c.borrowMut.2).borrowMut.1 = none) := by
  refine ⟨⟨?_, ?_, ?_⟩, ?_, ?_, ?_⟩
  · cases h : c.state <;> simp [RefCell.borrowMut, h]
  · cases h : c.state <;> simp [RefCell.borrowMut, h]
  · intro h; simp [RefCell.borrowMut, h]
  · intro n h; simp [RefCell.borrowMut, h]
  · intro h
    refine ⟨{ c with state := .Unshared }, ?_, ?_⟩
    · simp [RefCell.dropRef, h]
    · simp [RefCell.borrowMut]
  · intro h; simp [RefCell.borrowMut, h]

theorem borrowMut_spec_witness :
    ((⟨5, .Shared 1⟩ : RefCell Nat).borrowMut.1 = none) ∧
    ((⟨5, .Shared 1⟩ : RefCell Nat).borrowMut.2 = (⟨5, .Shared 1⟩ : RefCell Nat)) ∧
    ((⟨5, .Unshared⟩ : RefCell Nat).borrowMut = (some (), ⟨5, .Exclusive⟩)) ∧
    (((⟨5, .Exclusive⟩ : RefCell Nat).borrowMut.2).borrowMut.1 = none) := by
  refine ⟨?_, ?_, ?_, ?_⟩
  · exact (borrowMut_spec (⟨5, .Shared 1⟩ : RefCell Nat)).2.1 1 rfl
  · exact (borrowMut_spec (⟨5, .Shared 1⟩ : RefCell Nat)).1.2.1 rfl
  · exact (borrowMut_spec (⟨5, .Unshared⟩ : RefCell Nat)).1.2.2 rfl
  · exact (borrowMut_spec (⟨5, .Exclusive⟩ : RefCell Nat)).2.2.2 rfl

/-- C6: dropping a read guard in state `Shared 1` yields `Unshared`, in
state `Shared n` with `n > 1` yields `Shared (n-1)`; dropping a write
guard yields `Unshared` from every state. -/
theorem dropGuard_spec {α : Type u} (c : RefCell α) :
    (c.state = .Shared 1 → c.dropRef = some { c with state := .Unshared }) ∧
    (∀ n, c.state = .Shared n → 1 < n →
      c.dropRef = some { c with state := .Shared (n - 1) }) ∧
    (c.dropRefMut).state = .Unshared := by
  refine ⟨?_, ?_, rfl⟩
  · intro h; simp [RefCell.dropRef, h]
  · intro n h hn
    have : n ≠ 1 := Nat.ne_of_gt hn
    simp [RefCell.dropRef, h, this]

theorem dropGuard_spec_witness :
    ((⟨5, .Shared 1⟩ : RefCell Nat).dropRef = some (⟨5, .Unshared⟩ : RefCell Nat)) ∧
    ((⟨5, .Shared 2⟩ : RefCell Nat).dropRef = some (⟨5, .Shared 1⟩ : RefCell Nat)) ∧
    ((⟨5, .Exclusive⟩ : RefCell Nat).dropRefMut).state = .Unshared := by
  refine ⟨?_, ?_, (dropGuard_spec (⟨5, .Exclusive⟩ : RefCell Nat)).2.2⟩
  · exact (dropGuard_spec (⟨5, .Shared 1⟩ : RefCell Nat)).1 rfl
  · exact (dropGuard_spec (⟨5, .Shared 2⟩ : RefCell Nat)).2.1 2 rfl (by omega)

/-- C9: `Cell::get` returns the held value and changes nothing (it takes
the cell by shared reference and only copies the value out); `set v`
replaces the value wholesale, so a `get` right after `set v` returns `v`
and `set v` then `set w` equals `set w` alone. -/
theorem cell_get_set_spec {α : Type u} (c : Cell α) (v w : α) :
    (c.get = c.value) ∧
    ((c.set v).get = v) ∧
    ((c.set v).set w = c.set w) := by
  exact ⟨rfl, rfl, rfl⟩

/-- C8: one attempt of `RwLock::read` admits a reader exactly when the
state is `≥ 0` and then commits `state + 1` (a `none` result — exactly
when `state < 0` — only retries); `RwLock::write` succeeds exactly by the
compare-and-exchange from `0` to `-1`; dropping a read guard subtracts
one from the state; dropping a write guard stores `0`. -/
theorem rwlock_ops_spec (x s' : Int) :
    (RwLock.readUpdate x = some s' ↔ 0 ≤ x ∧ s' = x + 1) ∧
    (RwLock.readUpdate x = none ↔ x < 0) ∧
    (RwLock.writeCas x = some s' ↔ x = 0 ∧ s' = -1) ∧
    (RwLock.writeCas x = none ↔ x ≠ 0) ∧
    (RwLock.dropReadState x = x - 1) ∧
    (RwLock.dropWriteState x = 0) := by
  refine ⟨RwLock.readUpdate_eq_some, ?_, RwLock.writeCas_eq_some, ?_, rfl, rfl⟩
  · unfold RwLock.readUpdate
    split <;> simp <;> omega
  · unfold RwLock.writeCas
    split <;> simp_all

/-- C3: in every reachable configuration of the RwLock machine, the state
word is `-1` exactly when one write guard and no read guard is live, and
equals `k ≥ 0` exactly when `k` read guards and no write guard are live;
hence a write guard and a read guard never coexist. -/
theorem rwlock_state_guards (c : RwCfg) (h : Reach RwStep rwInit c) :
    (c.state = -1 ↔ c.writers = 1 ∧ c.readers = 0) ∧
    (∀ k : Nat, c.state = (k : Int) ↔ c.readers = k ∧ c.writers = 0) ∧
    ¬(1 ≤ c.writers ∧ 1 ≤ c.readers) := by
  have hinv := rwlock_inv c h
  unfold RwInv at hinv
  refine ⟨by omega, ?_, by omega⟩
  intro k
  omega

/-- A configuration with one live reader, reached by a single successful
`read()`. -/
def rwCfg1 : RwCfg := ⟨1, 1, 0⟩

theorem reach_rwCfg1 : Reach RwStep rwInit rwCfg1 :=
  Reach.tail Reach.refl (RwStep.read rwInit 1 (by decide))

theorem rwlock_state_guards_witness :
    (rwCfg1.state = -1 ↔ rwCfg1.writers = 1 ∧ rwCfg1.readers = 0) ∧
    (rwCfg1.state = ((1 : Nat) : Int) ↔ rwCfg1.readers = 1 ∧ rwCfg1.writers = 0) ∧
    ¬(1 ≤ rwCfg1.writers ∧ 1 ≤ rwCfg1.readers) := by
  have h := rwlock_state_guards rwCfg1 reach_rwCfg1
  exact ⟨h.1, h.2.1 1, h.2.2⟩

/-- A configuration with one live read guard on a `RefCell Nat`, reached
by a single successful `borrow()` from `RefCell::new 5`. -/
def refCfg1 : RefCfg Nat := ⟨⟨5, .Shared 1⟩, 1, 0, false⟩

theorem reach_refCfg1 : Reach RefStep (refInit 5) refCfg1 :=
  Reach.tail Reach.refl (RefStep.borrow (refInit 5))

/-- C7: under legal operation sequences the fatal internal checks are
dead: the RefCell machine never sets its `panicked` flag (the
`unreachable!()` branch of `Drop for Ref` never runs — whenever a read
guard is live, `dropRef` succeeds), and in the RwLock machine the
assertion of `Drop for RwLockReadGuard` holds: with a read guard live the
prior state value is `≥ 1`. -/
theorem fatal_checks_dead :
    (∀ (α : Type u) (v0 : α) (c : RefCfg α), Reach RefStep (refInit v0) c →
      c.panicked = false ∧ (1 ≤ c.reads → (c.cell.dropRef).isSome = true)) ∧
    (∀ c : RwCfg, Reach RwStep rwInit c → 1 ≤ c.readers → 1 ≤ c.state) := by
  constructor
  · intro α v0 c hreach
    obtain ⟨hp, hv, hs⟩ := refcell_inv v0 c hreach
    refine ⟨hp, ?_⟩
    intro hr
    rcases hs with ⟨h1, h2, h3⟩ | ⟨n, h1, hn, h2, h3⟩ | ⟨h1, h2, h3⟩
    · omega
    · by_cases hone : n = 1 <;> simp [RefCell.dropRef, h1, hone]
    · omega
  · intro c hreach hr
    have hinv := rwlock_inv c hreach
    unfold RwInv at hinv
    omega

theorem fatal_checks_dead_witness :
    (refCfg1.panicked = false ∧
      (1 ≤ refCfg1.reads → (refCfg1.cell.dropRef).isSome = true)) ∧
    1 ≤ rwCfg1.state := by
  exact ⟨fatal_checks_dead.{0}.1 Nat 5 refCfg1 reach_refCfg1,
    fatal_checks_dead.{0}.2 rwCfg1 reach_rwCfg1 (by decide)⟩

/-- C10: `borrow`, `borrow_mut` and both guard drops only touch the
borrow-state field, never the payload; along every legal operation
sequence the payload keeps its initial value; only writing through the
mutable dereference of a write guard changes it. -/
theorem refcell_frame :
    (∀ (α : Type u) (c : RefCell α),
      (c.borrow).2.value = c.value ∧
      (c.borrowMut).2.value = c.value ∧
      (∀ c', c.dropRef = some c' → c'.value = c.value) ∧
      (c.dropRefMut).value = c.value) ∧
    (∀ (α : Type u) (v0 : α) (c : RefCfg α),
      Reach RefStep (refInit v0) c → c.cell.value = v0) ∧
    (∀ (α : Type u) (c : RefCell α) (v : α), (c.refMutWrite v).value = v) := by
  refine ⟨?_, ?_, fun α c v => rfl⟩
  · intro α c
    refine ⟨?_, ?_, ?_, rfl⟩
    · cases h : c.state <;> simp [RefCell.borrow, h]
    · cases h : c.state <;> simp [RefCell.borrowMut, h]
    · intro c' h
      cases hs : c.state with
      | Shared n =>
          by_cases hone : n = 1 <;>
            simp [RefCell.dropRef, hs, hone] at h <;> simp [← h]
      | Exclusive => simp [RefCell.dropRef, hs] at h
      | Unshared => simp [RefCell.dropRef, hs] at h
  · intro α v0 c hreach
    exact (refcell_inv v0 c hreach).2.1

/-- In a fully finished configuration (all threads idle with no
iterations left) the counter equals `threads * N`. -/
theorem mcfg_final_value {W : Type} {unl : W} {n N : Nat} (s : MCfg W n)
    (hinv : MInv unl N s)
    (hdone : ∀ i, (s.ts i).ph = .idle ∧ (s.ts i).rem = 0) :
    s.value = n * N := by
  have hall : ∀ i ∈ Finset.univ, contrib N (s.ts i) = N := by
    intro i _
    obtain ⟨h1, h2⟩ := hdone i
    simp [contrib, h1, h2]
  calc s.value = ∑ i, contrib N (s.ts i) := hinv.2.2.2.2.2
    _ = Finset.univ.card * N := Finset.sum_const_nat hall
    _ = n * N := by simp

/-- C2: for the spin `Mutex` and the `FutexMutex`, under every
interleaving of `n` threads each incrementing the protected counter `N`
times through the guard (guard drop modelled by its `Drop` impl, the
increment split into its constituent read and write), at most one live
guard exists at any time, and once every thread has finished the counter
is exactly `n * N` — no lost updates. -/
theorem mutex_no_lost_updates :
    (∀ (n N : Nat) (s : MCfg Bool n),
      Reach (MStep Mutex.tryLock Mutex.unlockWord) (mInit Mutex.unlockWord n N) s →
      (∀ i j, (s.ts i).ph ≠ .idle → (s.ts j).ph ≠ .idle → i = j) ∧
      ((∀ i, (s.ts i).ph = .idle ∧ (s.ts i).rem = 0) → s.value = n * N)) ∧
    (∀ (n N : Nat) (s : MCfg Nat n),
      Reach (MStep FutexMutex.tryLock FutexMutex.unlockWord)
        (mInit FutexMutex.unlockWord n N) s →
      (∀ i j, (s.ts i).ph ≠ .idle → (s.ts j).ph ≠ .idle → i = j) ∧
      ((∀ i, (s.ts i).ph = .idle ∧ (s.ts i).rem = 0) → s.value = n * N)) := by
  constructor
  · intro n N s h
    have hinv := minv_reach mutexTry_spec s h
    exact ⟨hinv.2.2.1, fun hdone => mcfg_final_value s hinv hdone⟩
  · intro n N s h
    have hinv := minv_reach futexTry_spec s h
    exact ⟨hinv.2.2.1, fun hdone => mcfg_final_value s hinv hdone⟩

/-- The configuration after one thread of one has acquired the spin
mutex (one live guard). -/
def mutexCfg1 : MCfg Bool 1 :=
  ⟨true, 0, Function.update (fun _ => ⟨1, Phase.idle⟩) 0 ⟨1, Phase.own0⟩⟩

theorem reach_mutexCfg1 :
    Reach (MStep Mutex.tryLock Mutex.unlockWord) (mInit Mutex.unlockWord 1 1)
      mutexCfg1 :=
  Reach.tail Reach.refl
    (MStep.acquire (mInit Mutex.unlockWord 1 1) 0 true rfl (Nat.le_refl 1) rfl)

theorem mutex_no_lost_updates_witness :
    (mInit Mutex.unlockWord 1 0).value = 1 * 0 ∧
    (mInit FutexMutex.unlockWord 1 0).value = 1 * 0 ∧
    (0 : Fin 1) = 0 := by
  refine ⟨?_, ?_, ?_⟩
  · exact (mutex_no_lost_updates.1 1 0 _ Reach.refl).2 (fun i => ⟨rfl, rfl⟩)
  · exact (mutex_no_lost_updates.2 1 0 _ Reach.refl).2 (fun i => ⟨rfl, rfl⟩)
  · exact (mutex_no_lost_updates.1 1 1 mutexCfg1 reach_mutexCfg1).1 0 0
      (by decide) (by decide)

/-- C1: for Arc and Rc, along every legal sequence of clones and drops
from `new` (count `1`): the owner count equals the number of live handles
(so it is `≥ 1` while any handle exists), each clone adds exactly one and
each drop removes exactly one, and the payload destructor plus block
deallocation (one combined `drop(Box::from_raw)`) run exactly once,
precisely at the drop of the last handle (no double-free, no leak). -/
theorem refcount_lifecycle :
    (∀ s, Reach ArcStep ownerInit s →
      s.count = s.live ∧ (1 ≤ s.live → 1 ≤ s.count ∧ s.frees = 0) ∧
        (s.live = 0 → s.frees = 1)) ∧
    (∀ s, Reach RcStep ownerInit s →
      s.count = s.live ∧ (1 ≤ s.live → 1 ≤ s.count ∧ s.frees = 0) ∧
        (s.live = 0 → s.frees = 1)) ∧
    (∀ s : OwnerCfg, (Arc.cloneStep s).count = s.count + 1 ∧
      (Rc.cloneStep s).count = s.count + 1) ∧
    (∀ s : OwnerCfg, 1 ≤ s.count →
      (Arc.dropStep s).count = s.count - 1 ∧
      (Rc.dropStep s).count = s.count - 1 ∧
      (Arc.dropStep s).frees = s.frees + (if s.count = 1 then 1 else 0) ∧
      (Rc.dropStep s).frees = s.frees + (if s.count = 1 then 1 else 0)) := by
  refine ⟨?_, ?_, fun s => ⟨rfl, rfl⟩, ?_⟩
  · intro s h
    obtain ⟨h1, h2⟩ := arc_inv s h
    refine ⟨h1, ?_, ?_⟩ <;> intro hl <;> split at h2 <;> omega
  · intro s h
    obtain ⟨h1, h2⟩ := rc_inv s h
    refine ⟨h1, ?_, ?_⟩ <;> intro hl <;> split at h2 <;> omega
  · intro s hc
    unfold Arc.dropStep Rc.dropStep
    refine ⟨rfl, rfl, ?_, ?_⟩ <;> dsimp only <;>
      · split <;> first | omega | (split <;> omega)

theorem refcount_lifecycle_witness :
    ((Arc.dropStep ownerInit).count = (Arc.dropStep ownerInit).live ∧
      (1 ≤ (Arc.dropStep ownerInit).live → 1 ≤ (Arc.dropStep ownerInit).count ∧
        (Arc.dropStep ownerInit).frees = 0) ∧
      ((Arc.dropStep ownerInit).live = 0 → (Arc.dropStep ownerInit).frees = 1)) ∧
    ((Rc.cloneStep ownerInit).count = (Rc.cloneStep ownerInit).live ∧
      (1 ≤ (Rc.cloneStep ownerInit).live → 1 ≤ (Rc.cloneStep ownerInit).count ∧
        (Rc.cloneStep ownerInit).frees = 0) ∧
      ((Rc.cloneStep ownerInit).live = 0 → (Rc.cloneStep ownerInit).frees = 1)) ∧
    ((Arc.dropStep ⟨2, 2, 0⟩).count = 1 ∧ (Rc.dropStep ⟨2, 2, 0⟩).count = 1 ∧
      (Arc.dropStep ⟨2, 2, 0⟩).frees = 0 ∧ (Rc.dropStep ⟨2, 2, 0⟩).frees = 0) := by
  refine ⟨?_, ?_, ?_⟩
  · exact refcount_lifecycle.1 (Arc.dropStep ownerInit)
      (Reach.tail Reach.refl (ArcStep.drop ownerInit (by decide)))
  · exact refcount_lifecycle.2.1 (Rc.cloneStep ownerInit)
      (Reach.tail Reach.refl (RcStep.clone ownerInit (by decide)))
  · have h := refcount_lifecycle.2.2.2 ⟨2, 2, 0⟩ (by decide)
    refine ⟨h.1, h.2.1, ?_, ?_⟩
    · rw [h.2.2.1]; decide
    · rw [h.2.2.2]; decide

theorem refcell_frame_witness :
    ((⟨5, .Shared 1⟩ : RefCell Nat).dropRefMut).value = 5 ∧
    (⟨5, .Unshared⟩ : RefCell Nat).value = (⟨5, .Shared 1⟩ : RefCell Nat).value ∧
    refCfg1.cell.value = 5 := by
  refine ⟨(refcell_frame.1 Nat ⟨5, .Shared 1⟩).2.2.2, ?_, ?_⟩
  · exact (refcell_frame.1 Nat ⟨5, .Shared 1⟩).2.2.1 ⟨5, .Unshared⟩ rfl
  · exact refcell_frame.2.1 Nat 5 refCfg1 reach_refCfg1

end Pointers
